import Mathlib

/-!
# Verification of the coob restore subsystem

A shallow embedding of the package dependency restore subsystem of the
repository, together with proofs of the behavioural claims made about it.

The repository contains two parallel implementations of the restore flow:

* the node implementation, `Source/Tools/ccm/restore/restore.js`
  (`RestoreUnit`), driven by the `restore` command of the ccm CLI
  (`restore-tools.js` / the commander `restore` action), and
* the PowerShell implementation, `Coral.Composition.Bundle.psm1`
  (`Get-LatestCoobVersion`, `Restore-Coob`, `Restore-Composition`).

Strings are modelled as lists of characters (`Str`), so that every string
operation of the source (split, join, replace, filter by regular expression)
is an executable function a proof can evaluate.  Network and filesystem
effects are modelled by explicit event traces and by a folder-to-contents map.
-/

namespace Atoll

/-- JS / PowerShell strings, modelled as lists of characters. -/
abbrev Str := List Char

/-- Convenience conversion from a Lean string literal. -/
def str (s : String) : Str := s.data

/-! ## String primitives shared by the embeddings -/

/-- JS `s.split(sep)` for a one-character separator: `"".split('.')` is
`[""]`, and a separator at either end produces an empty token there. -/
def jsSplit (sep : Char) : Str → List Str
  | [] => [[]]
  | c :: cs =>
    let rest := jsSplit sep cs
    if c = sep then [] :: rest
    else (c :: rest.headI) :: rest.tail

/-- JS `parts.join(sep)` for a one-character separator. -/
def jsJoin (sep : Char) : List Str → Str
  | [] => []
  | [p] => p
  | p :: q :: rest => p ++ sep :: jsJoin sep (q :: rest)

/-- JS `s.replace(pat, repl)` with a string pattern: only the first
occurrence of `pat` is replaced (an empty pattern matches at position 0). -/
def jsReplace (s pat repl : Str) : Str :=
  match s with
  | [] => if pat.isPrefixOf ([] : Str) then repl else []
  | c :: cs =>
    if pat.isPrefixOf (c :: cs) then repl ++ (c :: cs).drop pat.length
    else c :: jsReplace cs pat repl

/-- The regular expression `/^\d+$/` of `restore.js` (`is_numeric`) and of
`versionCompare.isValidPart`: a non-empty all-digit token. -/
def is_numeric (s : Str) : Bool := !s.isEmpty && s.all Char.isDigit

/-- Numeric value of an all-digit token (`Number(s)` / `parseInt(s)` on the
digit-only strings both are applied to). -/
def strToNat (s : Str) : Nat := s.foldl (fun a c => 10 * a + (c.toNat - 48)) 0

/-! ## `RestoreUnit` of `Source/Tools/ccm/restore/restore.js` -/

/-- `coobVersion(coobName)`: split on `.`, keep the numeric tokens, join
them back with `.`. -/
def coobVersion (s : Str) : Str :=
  jsJoin '.' ((jsSplit '.' s).filter is_numeric)

/-- `coobName(coobName)`: split on `.`, drop the last token (`x.pop()`),
join back, delete the first occurrence of `coobVersion` of that string
(`replace(..., '')`), and drop the final character (`slice(0, -1)`). -/
def coobName (s : Str) : Str :=
  let x := jsSplit '.' s
  let x := x.dropLast
  let joined := jsJoin '.' x
  let res := jsReplace joined (coobVersion joined) []
  res.dropLast

/-- The component-wise loop of `versionCompare` (after both part lists are
mapped through `Number`): `1` when the first differing component is larger
on the left or the right runs out first, `-1` when it is smaller or the
left runs out first, `0` when the lists are equal. -/
def cmpLists : List Nat → List Nat → Int
  | [], [] => 0
  | [], _ :: _ => -1
  | _ :: _, [] => 1
  | a :: as, b :: bs => if a = b then cmpLists as bs else if a > b then 1 else -1

/-- `versionCompare(v1, v2)` as called from `coobLatestVersion` (no options:
`lexicographical` and `zeroExtend` are both absent).  `none` models the
`NaN` returned when a dot-separated token of either operand is not
`/^\d+$/`. -/
def versionCompare (v1 v2 : Str) : Option Int :=
  let v1parts := jsSplit '.' v1
  let v2parts := jsSplit '.' v2
  if v1parts.all is_numeric && v2parts.all is_numeric then
    some (cmpLists (v1parts.map strToNat) (v2parts.map strToNat))
  else none

/-- The comparator handed to `Array.sort`: `a` sorts no later than `b` when
the comparator result is not positive (a `NaN` result is modelled as `0`,
which is how a non-numeric comparator result behaves in the engines). -/
def vcLe (a b : Str) : Bool := ((versionCompare a b).getD 0) ≤ 0

/-- Insertion step of the sort model. -/
def insertVC (a : Str) : List Str → List Str
  | [] => [a]
  | b :: bs => if vcLe a b then a :: b :: bs else b :: insertVC a bs

/-- `x.sort((a, b) => versionCompare(a, b))`, modelled as an insertion sort
over the same comparator (for a consistent comparator any comparison sort
produces the same ascending order; only the last element is consumed). -/
def jsSortVC : List Str → List Str
  | [] => []
  | a :: as => insertVC a (jsSortVC as)

/-- `coobLatestVersion(coobName, body)`: the keys of the listing body are
filtered to those whose `coobName` equals the requested id, mapped to their
`coobVersion`, sorted ascending, and the last element is returned.
`x[x.length - 1]` of an empty array is `undefined`, modelled as `none`. -/
def coobLatestVersion (queried : Str) (keys : List Str) : Option Str :=
  let x := keys.filter (fun e => coobName e == queried)
  let x := x.map coobVersion
  let x := jsSortVC x
  x.getLast?

/-- `path.join(a, b)`, on the well-formed inputs of this code base. -/
def pathJoin (a b : Str) : Str := a ++ '/' :: b

/-- `this.svcUrl`, fixed in the `RestoreUnit` constructor. -/
def svcUrl : Str := str "http://coobs.sftconsult.synology.me:5000/"

/-- `coobUrl(coobName, coobVersion)`. -/
def coobUrl (name version : Str) : Str :=
  svcUrl ++ name ++ str "." ++ version ++ str ".coob"

/-- `coobDest(coobName, coobVersion)`: the temporary archive file. -/
def coobDest (coobsDir name version : Str) : Str :=
  pathJoin coobsDir (name ++ str "." ++ version ++ str ".zip")

/-- `coobDestFolder(coobName)`: the folder the archive is extracted into —
the literal `coobName` argument joined onto the coobs directory. -/
def coobDestFolder (coobsDir name : Str) : Str := pathJoin coobsDir name

/-! ### The orchestration of `RestoreUnit.restore`

`restore()` awaits `downloadPage(this.svcUrl)` (one GET of the catalog
listing), computes `coobLatestVersion`, overrides it with the explicit
`opts.coobVersion` when that is neither `null` nor `""`, awaits
`restoreCoob` for the root, reads the root manifest through the external
devtool (`coobProps`, whose reference list is a parameter here), and then
awaits `restoreCoob` for each reference in order (`for (var p in
references)` over an array walks the indices in order).  Each `await`
completes before the next statement runs, and a failed `restoreCoob` never
resolves, so a failure stops everything after it. -/

/-- A dependency reference of the root manifest (`references[p].id` /
`references[p].version`). -/
structure CoobRef where
  id : Str
  version : Str
deriving DecidableEq

/-- The options handed to `RestoreUnit`: the root id and an optional
explicit version (`null` is `none`; the empty string is a real value that
the code treats like `null`). -/
structure NOpts where
  coobName : Str
  coobVersion : Option Str

/-- One observable network action of the node restore run. -/
inductive NEvent
  | listingFetch
  | archiveFetch (name : Str) (version : Option Str)
deriving DecidableEq

/-- `let useVersion = latestVersion; if (!(this.opts.coobVersion == null ||
this.opts.coobVersion == "")) useVersion = this.opts.coobVersion;`.
A `none` result models JS `undefined` flowing into the fetch URL. -/
def useVersion (opts : NOpts) (keys : List Str) : Option Str :=
  let latestVersion := coobLatestVersion opts.coobName keys
  match opts.coobVersion with
  | none => latestVersion
  | some v => if v = [] then latestVersion else some v

/-- Whether a `restoreCoob` call succeeds (download plus extraction), as a
function of the name and version it is called with. -/
abbrev FetchOk := Str → Option Str → Bool

/-- The `for (var p in references)` loop: each dependency is fetched by an
awaited `restoreCoob`; a failing fetch is still issued (its event is
recorded) but nothing after it runs. -/
def restoreDeps (fetchOk : FetchOk) : List CoobRef → List NEvent × Bool
  | [] => ([], true)
  | r :: rs =>
    if fetchOk r.id (some r.version) then
      let d := restoreDeps fetchOk rs
      (NEvent.archiveFetch r.id (some r.version) :: d.1, d.2)
    else ([NEvent.archiveFetch r.id (some r.version)], false)

/-- `RestoreUnit.restore()` as an event trace plus success flag.
`listingOk` is whether `downloadPage` resolves (it rejects on a network
error or a non-200 status, ending the run); `keys` are the keys of the JSON
listing body; `refs` is the reference list the devtool reads from the root
manifest. -/
def restoreRun (opts : NOpts) (listingOk : Bool) (keys : List Str)
    (fetchOk : FetchOk) (refs : List CoobRef) : List NEvent × Bool :=
  if listingOk then
    let uv := useVersion opts keys
    if fetchOk opts.coobName uv then
      let d := restoreDeps fetchOk refs
      (NEvent.listingFetch :: NEvent.archiveFetch opts.coobName uv :: d.1, d.2)
    else ([NEvent.listingFetch, NEvent.archiveFetch opts.coobName uv], false)
  else ([NEvent.listingFetch], false)

/-- The archive fetches of a trace, in order, as (name, version) pairs. -/
def archiveFetches (es : List NEvent) : List (Str × Option Str) :=
  es.filterMap (fun e =>
    match e with
    | NEvent.archiveFetch n v => some (n, v)
    | NEvent.listingFetch => none)

/-- The fetch event a dependency reference gives rise to. -/
def depFetch (r : CoobRef) : NEvent := NEvent.archiveFetch r.id (some r.version)

/-- Whether a dependency's `restoreCoob` call succeeds. -/
def depOk (fetchOk : FetchOk) (r : CoobRef) : Bool := fetchOk r.id (some r.version)

/-! ### The filesystem behaviour of `RestoreUnit.restoreCoob`

`restoreCoob(coobName, coobVersion)` computes the url, the temporary zip
file and the destination folder, runs `fsx.ensureDirSync(folder)` and
`fsx.emptyDirSync(folder)`, and only then issues `request(url)` piped into
the zip file; on stream close it unzips into the folder and deletes the
zip.  The filesystem is modelled as a map from folder path to contents;
the zip file itself is transient and tracked only through events. -/

/-- One filesystem or network action of `restoreCoob`, in program order. -/
inductive FsEvent
  | ensureDir (folder : Str)
  | emptyDir (folder : Str)
  | httpGet (url : Str)
  | unzip (file : Str) (folder : Str)
  | unlink (file : Str)
deriving DecidableEq

/-- Folder-to-contents view of the coobs directory. -/
abbrev FolderMap := Str → List Str

/-- Point update of a folder map. -/
def fsSet (fs : FolderMap) (k : Str) (v : List Str) : FolderMap :=
  fun q => if q = k then v else fs q

/-- Result of one `restoreCoob` call. -/
structure CoobFetchResult where
  fs : FolderMap
  ok : Bool
  events : List FsEvent

/-- `restoreCoob` on the folder map: the destination folder is created and
emptied, the download is issued, and on success the extracted archive
contents replace the folder's (already empty) contents.  `downloadOk` and
`extractOk` say whether the two fallible stages succeed; `archive` is the
content extracted on success. -/
def restoreCoobFS (coobsDir : Str) (fs : FolderMap) (name version : Str)
    (downloadOk extractOk : Bool) (archive : List Str) : CoobFetchResult :=
  let folder := coobDestFolder coobsDir name
  let filename := coobDest coobsDir name version
  let fs1 := fsSet fs folder []
  let pre := [FsEvent.ensureDir folder, FsEvent.emptyDir folder,
              FsEvent.httpGet (coobUrl name version)]
  if downloadOk then
    if extractOk then
      ⟨fsSet fs1 folder archive, true,
        pre ++ [FsEvent.unzip filename folder, FsEvent.unlink filename]⟩
    else ⟨fs1, false, pre ++ [FsEvent.unzip filename folder]⟩
  else ⟨fs1, false, pre⟩

/-! ## `IsValidVersionComponent` / `IsValidVersion` of the ccm helpers -/

/-- `IsValidVersionComponent(s)`: empty strings are invalid; a one-character
string must be a digit; a longer string must start with `'1'..'9'`, contain
only digits after that, and parse to at most `2147483647`.  The character
loop that returns `false` at the first non-digit is expressed with `any`. -/
def IsValidVersionComponent (s : Str) : Bool :=
  match s with
  | [] => false
  | [c] => !(decide (c < '0') || decide (c > '9'))
  | c :: rest =>
    if c < '1' ∨ c > '9' then false
    else if rest.any (fun d => decide (d < '0') || decide (d > '9')) then false
    else decide (strToNat s ≤ 2147483647)

/-- `IsValidVersion(s)`: split on `.` with limit 5 (JS truncates the token
list at the limit), require 2 to 4 tokens, and check the tokens the code
indexes (which, at these lengths, are all of them). -/
def IsValidVersion (s : Str) : Bool :=
  let parts := (jsSplit '.' s).take 5
  let length := parts.length
  if length < 2 ∨ length > 4 then false
  else if !(IsValidVersionComponent (parts.getD 0 []) &&
            IsValidVersionComponent (parts.getD 1 [])) then false
  else if length < 3 then true
  else if !IsValidVersionComponent (parts.getD 2 []) then false
  else if length < 4 then true
  else IsValidVersionComponent (parts.getD 3 [])

/-! ## `RestoreCoobsCommand` (restore-tools) and the CLI `restore` action

The command wraps the restore run in a promise:

```
new Promise((resolve, reject) => {
  if (coobName == null || coobName == "")
    return ErrorAndRejectConsole(reject, '...CoobName argument is not defined.')
  ...
  restoreUnit.restore().then(resolve())
    .catch(err => ErrorAndRejectConsole(reject, errorMessage, ..., err));
})
```

The executor runs synchronously.  With a missing or empty `coobName` it
rejects at once.  Otherwise `restore()` is started and `.then(resolve())`
is installed: the argument `resolve()` is **evaluated at installation
time**, so the outer promise is resolved immediately, before the restore
settles; a promise settles only once, so the eventual outcome of
`restore()` cannot change the result (the rejection path would in any case
fault on the undeclared `errorMessage` before calling `reject`).  The
`restoreSucceeds` parameter is therefore dead in the settled state. -/

/-- The settled state of the command promise. -/
inductive PromiseResult
  | resolvedP
  | rejectedP
deriving DecidableEq

/-- `RestoreCoobsCommand(paths, coobName, coobVersion, overwrite)` reduced
to its settled state, given whether the inner restore run succeeds. -/
def RestoreCoobsCommand (coobName : Option Str) (_restoreSucceeds : Bool) :
    PromiseResult :=
  match coobName with
  | none => PromiseResult.rejectedP
  | some n => if n = [] then PromiseResult.rejectedP else PromiseResult.resolvedP

/-- The commander `restore` action: `.then(() => exit(0))`,
`.catch(err => exit(-1))`. -/
def ccmRestoreExitCode (coobName : Option Str) (restoreSucceeds : Bool) : Int :=
  match RestoreCoobsCommand coobName restoreSucceeds with
  | PromiseResult.resolvedP => 0
  | PromiseResult.rejectedP => -1

/-! ## The PowerShell implementation (`Coral.Composition.Bundle.psm1`)

`Get-LatestCoobVersion` filters the listing keys by the prefix
`"$CoobName."` and the suffix `".coob"`, parses the middle as a
`System.Version`, skips versions at or above `IgnoreVersionsUpFrom` when
that bound is given, and keeps the running maximum.  `System.Version` is
modelled, on the plain digit components this repository uses, as a list of
2 to 4 numeric components each at most `2147483647`; `CompareTo` pads the
missing components with `-1`. -/

/-- `[System.String]::IsNullOrWhiteSpace` on an optional string. -/
def isNullOrWhiteSpaceOpt : Option Str → Bool
  | none => true
  | some s => s.all Char.isWhitespace

/-- `[System.Version]::TryParse`, modelled on plain digit components:
2 to 4 dot-separated non-empty all-digit tokens, each of value at most
`Int32.MaxValue`. -/
def sysVerTryParse (s : Str) : Option (List Nat) :=
  let parts := jsSplit '.' s
  if 2 ≤ parts.length ∧ parts.length ≤ 4 ∧
      (∀ p ∈ parts, is_numeric p = true ∧ strToNat p ≤ 2147483647) then
    some (parts.map strToNat)
  else none

/-- Lexicographic comparison of two equal-length integer lists. -/
def lexCmpInt : List Int → List Int → Int
  | [], [] => 0
  | [], _ :: _ => -1
  | _ :: _, [] => 1
  | a :: as, b :: bs => if a = b then lexCmpInt as bs else if a > b then 1 else -1

/-- Pad a parsed version to the four fields `System.Version` stores, the
absent ones holding `-1`. -/
def padTo4 (v : List Nat) : List Int :=
  v.map Int.ofNat ++ List.replicate (4 - v.length) (-1)

/-- `a.CompareTo(b)` of `System.Version`. -/
def sysVerCompare (a b : List Nat) : Int := lexCmpInt (padTo4 a) (padTo4 b)

/-- `$fileName.StartsWith($CoobPrefix) -and $fileName.EndsWith($CoobSuffix)`. -/
def coobKeyMatches (name key : Str) : Bool :=
  (name ++ ['.']).isPrefixOf key && (str ".coob").isSuffixOf key

/-- `$fileName.SubString($CoobPrefix.Length,
$fileName.Length - $CoobSuffix.Length - $CoobPrefix.Length)`. -/
def coobKeyVersionStr (name key : Str) : Str :=
  (key.drop (name.length + 1)).take (key.length - 5 - (name.length + 1))

/-- `if ($null -eq $latestVersion -or $latestVersion.CompareTo($version) -le 0)
{ $latestVersion = $version }`. -/
def pickLater (latest : Option (List Nat)) (v : List Nat) : Option (List Nat) :=
  match latest with
  | none => some v
  | some l => if sysVerCompare l v ≤ 0 then some v else latest

/-- One iteration of the `foreach ($prop in $response.PSObject.Properties)`
loop of `Get-LatestCoobVersion`. -/
def latestStep (maxV : Option (List Nat)) (name : Str)
    (latest : Option (List Nat)) (key : Str) : Option (List Nat) :=
  if coobKeyMatches name key then
    match sysVerTryParse (coobKeyVersionStr name key) with
    | none => latest
    | some v =>
      match maxV with
      | some m => if sysVerCompare m v ≤ 0 then latest else pickLater latest v
      | none => pickLater latest v
  else latest

/-- The whole selection loop over the listing keys. -/
def selectLatest (maxV : Option (List Nat)) (name : Str) (keys : List Str) :
    Option (List Nat) :=
  keys.foldl (latestStep maxV name) none

/-- `Get-LatestCoobVersion`: an unparsable `IgnoreVersionsUpFrom` writes an
error and returns nothing (`Except.error`); otherwise the selection runs,
with the ceiling when one was given.  The listing GET itself
(`Invoke-RestMethod -Uri $RepoUri`) happens before any of this. -/
def getLatestCoobVersion (keys : List Str) (name : Str)
    (ignoreUpFrom : Option Str) : Except Unit (Option (List Nat)) :=
  if isNullOrWhiteSpaceOpt ignoreUpFrom then
    Except.ok (selectLatest none name keys)
  else
    match sysVerTryParse (ignoreUpFrom.getD []) with
    | none => Except.error ()
    | some m => Except.ok (selectLatest (some m) name keys)

/-- The versions of the listing keys that match a package id and parse,
in listing order — what the selection loop ever looks at. -/
def candidateVersions (name : Str) (keys : List Str) : List (List Nat) :=
  keys.filterMap (fun k =>
    if coobKeyMatches name k then sysVerTryParse (coobKeyVersionStr name k)
    else none)

/-- `$version.ToString()` of a parsed version: components joined by dots. -/
def verToStr (v : List Nat) : Str := jsJoin '.' (v.map (fun n => (toString n).data))

/-- One observable network action of the PowerShell restore run. -/
inductive PsEvent
  | listingFetch
  | coobFetch (fullName : Str)
deriving DecidableEq

/-- `Restore-Composition`: when `$CoobVersion` is null or whitespace the
catalog is contacted (`Get-LatestCoobVersion`) and the run stops with
"Failed to determine latest coob version" when nothing was selected;
otherwise the explicit version is used directly and the catalog is never
contacted.  The root archive `"$CoobName.$CoobVersion"` is fetched first,
then each dependency read from the root manifest, in order.  Dependency
strings already carry their version (`<id>.<major>.<minor>.<patch>`). -/
def psRestoreRun (coobName : Str) (coobVersion : Option Str)
    (ignoreUpFrom : Option Str) (keys : List Str) (deps : List Str) :
    List PsEvent × Bool :=
  if isNullOrWhiteSpaceOpt coobVersion then
    match getLatestCoobVersion keys coobName ignoreUpFrom with
    | Except.error _ => ([PsEvent.listingFetch], false)
    | Except.ok none => ([PsEvent.listingFetch], false)
    | Except.ok (some v) =>
      (PsEvent.listingFetch :: PsEvent.coobFetch (coobName ++ '.' :: verToStr v)
        :: deps.map PsEvent.coobFetch, true)
  else
    (PsEvent.coobFetch (coobName ++ '.' :: coobVersion.getD [])
      :: deps.map PsEvent.coobFetch, true)

/-! ## A definition taken from the specification's words -/

/-- Modelled from the spec: the `<name>` portion of a combined
`<name>.<major>.<minor>.<patch>[.<more>]` string — the dot-separated tokens
before the first all-numeric token, joined back with dots.  The spec claims
this derived name, not the literal argument, names the extraction folder of
a fetch-and-extract call. -/
def specDerivedName (s : Str) : Str :=
  jsJoin '.' ((jsSplit '.' s).takeWhile (fun p => !is_numeric p))

/-- The component-validity rule as the spec words it: a non-empty
digits-only token, no leading zero unless the token is exactly `"0"`,
of value at most `2147483647`. -/
def specValidComponent (p : Str) : Prop :=
  p ≠ [] ∧ (∀ c ∈ p, c.isDigit = true) ∧ (p.headI = '0' → p = ['0']) ∧
    strToNat p ≤ 2147483647

/-! # Lemmas

## Splitting, joining and replacing -/

theorem jsSplit_ne_nil (sep : Char) (s : Str) : jsSplit sep s ≠ [] := by
  cases s with
  | nil => simp [jsSplit]
  | cons c cs => simp only [jsSplit]; split <;> simp

theorem headI_append {α : Type} [Inhabited α] {A : List α} (B : List α)
    (h : A ≠ []) : (A ++ B).headI = A.headI := by
  cases A with
  | nil => exact absurd rfl h
  | cons a as => rfl

theorem tail_append_left {α : Type} {A : List α} (B : List α) (h : A ≠ []) :
    (A ++ B).tail = A.tail ++ B := by
  cases A with
  | nil => exact absurd rfl h
  | cons a as => rfl

theorem headI_mem {α : Type} [Inhabited α] {A : List α} (h : A ≠ []) :
    A.headI ∈ A := by
  cases A with
  | nil => exact absurd rfl h
  | cons a as => exact List.mem_cons_self a as

theorem jsSplit_append (sep : Char) (a b : Str) :
    jsSplit sep (a ++ sep :: b) = jsSplit sep a ++ jsSplit sep b := by
  induction a with
  | nil => simp [jsSplit]
  | cons c cs ih =>
    show jsSplit sep (c :: (cs ++ sep :: b)) = _
    simp only [jsSplit]
    rw [ih]
    by_cases hc : c = sep
    · rw [if_pos hc, if_pos hc]
      rfl
    · rw [if_neg hc, if_neg hc]
      rw [headI_append _ (jsSplit_ne_nil sep cs),
        tail_append_left _ (jsSplit_ne_nil sep cs)]
      rfl

theorem jsSplit_eq_single (sep : Char) (p : Str) (h : sep ∉ p) :
    jsSplit sep p = [p] := by
  induction p with
  | nil => rfl
  | cons c cs ih =>
    have hc : ¬(c = sep) := fun e => h (by simp [e])
    have hcs : sep ∉ cs := fun m => h (List.mem_cons_of_mem _ m)
    simp [jsSplit, ih hcs, hc]

theorem jsJoin_jsSplit (sep : Char) (s : Str) :
    jsJoin sep (jsSplit sep s) = s := by
  induction s with
  | nil => rfl
  | cons c cs ih =>
    simp only [jsSplit]
    rcases hr : jsSplit sep cs with _ | ⟨q, rest⟩
    · exact absurd hr (jsSplit_ne_nil sep cs)
    · rw [hr] at ih
      by_cases hc : c = sep
      · subst hc
        rw [if_pos rfl]
        show c :: jsJoin c (q :: rest) = c :: cs
        rw [ih]
      · rw [if_neg hc]
        cases rest with
        | nil =>
          have h2 : q = cs := ih
          show c :: q = c :: cs
          rw [h2]
        | cons r rs =>
          have h2 : q ++ sep :: jsJoin sep (r :: rs) = cs := ih
          show (c :: q) ++ sep :: jsJoin sep (r :: rs) = c :: cs
          rw [List.cons_append, h2]

theorem jsJoin_append (sep : Char) (A B : List Str) (hA : A ≠ []) (hB : B ≠ []) :
    jsJoin sep (A ++ B) = jsJoin sep A ++ sep :: jsJoin sep B := by
  induction A with
  | nil => exact absurd rfl hA
  | cons a as ih =>
    cases as with
    | nil =>
      cases B with
      | nil => exact absurd rfl hB
      | cons b bs => simp [jsJoin]
    | cons a2 as2 =>
      have h2 := ih (by simp)
      simp only [List.cons_append] at h2 ⊢
      rw [jsJoin, jsJoin, h2, List.append_assoc]
      rfl

theorem jsSplit_jsJoin (sep : Char) (comps : List Str) (h : comps ≠ [])
    (hs : ∀ p ∈ comps, sep ∉ p) :
    jsSplit sep (jsJoin sep comps) = comps := by
  induction comps with
  | nil => exact absurd rfl h
  | cons p rest ih =>
    cases rest with
    | nil => simpa using jsSplit_eq_single sep p (hs p (by simp))
    | cons q rs =>
      rw [jsJoin, jsSplit_append, jsSplit_eq_single sep p (hs p (by simp)),
        ih (by simp) (fun x hx => hs x (List.mem_cons_of_mem _ hx))]
      rfl

theorem mem_of_mem_jsSplit (sep : Char) (s : Str) :
    ∀ p ∈ jsSplit sep s, ∀ c ∈ p, c ∈ s := by
  induction s with
  | nil =>
    intro p hp c hc
    simp [jsSplit] at hp
    subst hp
    simp at hc
  | cons c0 cs ih =>
    intro p hp c hc
    simp only [jsSplit] at hp
    by_cases h0 : c0 = sep
    · rw [if_pos h0] at hp
      rcases List.mem_cons.mp hp with rfl | hp
      · simp at hc
      · exact List.mem_cons_of_mem _ (ih p hp c hc)
    · rw [if_neg h0] at hp
      rcases List.mem_cons.mp hp with rfl | hp
      · rcases List.mem_cons.mp hc with rfl | hc
        · exact List.mem_cons_self ..
        · have hm : (jsSplit sep cs).headI ∈ jsSplit sep cs :=
            headI_mem (jsSplit_ne_nil sep cs)
          exact List.mem_cons_of_mem _ (ih _ hm c hc)
      · have hm : p ∈ jsSplit sep cs := List.mem_of_mem_tail hp
        exact List.mem_cons_of_mem _ (ih p hm c hc)

theorem isPrefixOf_self (l : Str) : l.isPrefixOf l = true := by
  induction l with
  | nil => rfl
  | cons c cs ih => simp [List.isPrefixOf, ih]

/-- Replacing the version suffix inside `pre ++ "." ++ v`, when `pre` has no
digits and `v` starts with one, deletes exactly the trailing `v`. -/
theorem jsReplace_version (v : Str) (hv : v ≠ []) (hd : v.headI.isDigit = true) :
    ∀ pre : Str, (∀ c ∈ pre, c.isDigit = false) →
      jsReplace (pre ++ '.' :: v) v [] = pre ++ ['.'] := by
  rcases v with _ | ⟨vh, vt⟩
  · exact absurd rfl hv
  · simp only [List.headI] at hd
    have hdot : ¬(vh == '.') = true := by
      simp only [beq_iff_eq]
      intro e
      rw [e] at hd
      simp at hd
    intro pre
    induction pre with
    | nil =>
      intro _
      simp only [List.nil_append]
      rw [jsReplace]
      rw [if_neg (by simp [List.isPrefixOf, hdot])]
      rw [jsReplace]
      rw [if_pos (isPrefixOf_self _)]
      simp
    | cons c cs ih =>
      intro hpre
      have hc : c.isDigit = false := hpre c (by simp)
      have hne : ¬(vh == c) = true := by
        simp only [beq_iff_eq]
        intro e
        rw [e] at hd
        rw [hd] at hc
        exact absurd hc (by simp)
      rw [List.cons_append, jsReplace]
      rw [if_neg (by simp [List.isPrefixOf, hne])]
      rw [ih (fun x hx => hpre x (List.mem_cons_of_mem _ hx))]
      rfl

/-! ## Characters and digit tokens -/

theorem char_le_iff {a b : Char} : a ≤ b ↔ a.toNat ≤ b.toNat := Iff.rfl

theorem char_lt_iff {a b : Char} : a < b ↔ a.toNat < b.toNat := Iff.rfl

theorem char_eq_iff {a b : Char} : a = b ↔ a.toNat = b.toNat :=
  ⟨fun h => by rw [h], fun h => Char.eq_of_val_eq (UInt32.ext h)⟩

theorem toNat_char_zero : ('0' : Char).toNat = 48 := rfl

theorem toNat_char_one : ('1' : Char).toNat = 49 := rfl

theorem toNat_char_nine : ('9' : Char).toNat = 57 := rfl

theorem isDigit_toNat {c : Char} : c.isDigit = true ↔ 48 ≤ c.toNat ∧ c.toNat ≤ 57 := by
  simp only [Char.isDigit, ge_iff_le, Bool.and_eq_true, decide_eq_true_eq]
  exact ⟨fun h => h, fun h => h⟩

theorem digit_ne_dot {c : Char} (h : c.isDigit = true) : c ≠ '.' := by
  intro e
  rw [e] at h
  exact absurd h (by decide)

theorem digit_not_ws {c : Char} (h : c.isDigit = true) : c.isWhitespace = false := by
  have hn := isDigit_toNat.mp h
  by_contra hw
  rw [Bool.not_eq_false] at hw
  simp only [Char.isWhitespace, Bool.or_eq_true, decide_eq_true_eq] at hw
  rcases hw with ((rfl | rfl) | rfl) | rfl <;> simp at hn

theorem is_numeric_iff {p : Str} :
    is_numeric p = true ↔ p ≠ [] ∧ ∀ c ∈ p, c.isDigit = true := by
  simp [is_numeric, List.all_eq_true, List.isEmpty_iff]

/-! ## The component and version validity checks -/

theorem IsValidVersionComponent_iff (p : Str) :
    IsValidVersionComponent p = true ↔ specValidComponent p := by
  rcases p with _ | ⟨c, rest⟩
  · simp [IsValidVersionComponent, specValidComponent]
  rcases rest with _ | ⟨d, rest⟩
  · simp only [IsValidVersionComponent, specValidComponent, Bool.not_eq_true',
      Bool.or_eq_false_iff, decide_eq_false_iff_not, char_lt_iff, gt_iff_lt,
      toNat_char_zero, toNat_char_nine, not_lt,
      List.mem_singleton, forall_eq, List.headI, ne_eq, reduceCtorEq,
      not_false_iff, true_and, List.cons.injEq, and_true]
    constructor
    · intro h
      have hd : c.isDigit = true := isDigit_toNat.mpr (by omega)
      refine ⟨hd, fun h => h, ?_⟩
      have h57 := isDigit_toNat.mp hd
      show strToNat [c] ≤ 2147483647
      simp only [strToNat, List.foldl]
      omega
    · rintro ⟨hd, -, -⟩
      have := isDigit_toNat.mp hd
      omega
  · simp only [IsValidVersionComponent, specValidComponent]
    by_cases h1 : c < '1' ∨ c > '9'
    · rw [if_pos h1]
      simp only [Bool.false_eq_true, false_iff, not_and]
      intro hne hall hlead
      have hcd := isDigit_toNat.mp (hall c (by simp))
      rcases h1 with h1 | h1
      · rw [char_lt_iff, toNat_char_one] at h1
        have hc0 : c = '0' := char_eq_iff.mpr (by rw [toNat_char_zero]; omega)
        have heq := hlead (show (c :: d :: rest).headI = '0' from hc0)
        exact absurd heq (by simp)
      · rw [gt_iff_lt, char_lt_iff, toNat_char_nine] at h1
        exact absurd hcd.2 (by omega)
    · rw [if_neg h1]
      push_neg at h1
      obtain ⟨h1a, h1b⟩ := h1
      rw [char_le_iff, toNat_char_one] at h1a
      rw [char_le_iff, toNat_char_nine] at h1b
      by_cases h2 : ((d :: rest).any fun x => decide (x < '0') || decide (x > '9')) = true
      · rw [if_pos h2]
        simp only [List.any_eq_true, Bool.or_eq_true, decide_eq_true_eq] at h2
        obtain ⟨x, hx, hxd⟩ := h2
        simp only [Bool.false_eq_true, false_iff, not_and]
        intro hne hall hlead
        have hxdig := isDigit_toNat.mp (hall x (List.mem_cons_of_mem _ hx))
        rcases hxd with hxd | hxd
        · rw [char_lt_iff, toNat_char_zero] at hxd
          exact absurd hxdig.1 (by omega)
        · rw [gt_iff_lt, char_lt_iff, toNat_char_nine] at hxd
          exact absurd hxdig.2 (by omega)
      · rw [if_neg h2]
        simp only [List.any_eq_true, Bool.or_eq_true, decide_eq_true_eq, not_exists,
          not_and, not_or] at h2
        constructor
        · intro hval
          rw [decide_eq_true_eq] at hval
          refine ⟨by simp, ?_, ?_, hval⟩
          · intro x hx
            rcases List.mem_cons.mp hx with rfl | hx
            · exact isDigit_toNat.mpr (by omega)
            · obtain ⟨ha, hb⟩ := h2 x hx
              rw [not_lt, char_le_iff, toNat_char_zero] at ha
              rw [gt_iff_lt, not_lt, char_le_iff, toNat_char_nine] at hb
              exact isDigit_toNat.mpr (by omega)
          · intro hh
            exfalso
            have hc0 : c = '0' := hh
            rw [char_eq_iff, toNat_char_zero] at hc0
            omega
        · rintro ⟨-, -, -, hval⟩
          rw [decide_eq_true_eq]
          exact hval

/-! ## The comparison loop of `versionCompare` -/

theorem cmpLists_self : ∀ l : List Nat, cmpLists l l = 0
  | [] => rfl
  | a :: as => by simp [cmpLists, cmpLists_self as]

theorem cmpLists_swap : ∀ as bs : List Nat,
    (cmpLists as bs = 1 ↔ cmpLists bs as = -1)
  | [], [] => by simp [cmpLists]
  | [], _ :: _ => by simp [cmpLists]
  | _ :: _, [] => by simp [cmpLists]
  | a :: as, b :: bs => by
    simp only [cmpLists]
    by_cases h : a = b
    · have h' : b = a := h.symm
      simp only [if_pos h, if_pos h']
      exact cmpLists_swap as bs
    · have h' : ¬b = a := fun e => h e.symm
      by_cases hgt : a > b
      · have hng : ¬b > a := by omega
        simp [h, h', hgt, hng]
      · have hbg : b > a := by omega
        simp [h, h', hgt, hbg]

theorem versionCompare_valid (a b : Str)
    (ha : (jsSplit '.' a).all is_numeric = true)
    (hb : (jsSplit '.' b).all is_numeric = true) :
    versionCompare a b =
      some (cmpLists ((jsSplit '.' a).map strToNat) ((jsSplit '.' b).map strToNat)) := by
  simp [versionCompare, ha, hb]

/-! ## The dependency loop of `RestoreUnit.restore` -/

theorem restoreDeps_events (f : FetchOk) : ∀ refs : List CoobRef,
    (restoreDeps f refs).1 =
      (refs.take ((refs.takeWhile (depOk f)).length + 1)).map depFetch
  | [] => by simp [restoreDeps]
  | r :: rs => by
    by_cases h : f r.id (some r.version)
    · simp only [restoreDeps, if_pos h, List.takeWhile_cons, depOk, h,
        List.length_cons, List.take_succ_cons, List.map_cons]
      rw [restoreDeps_events f rs]
      rfl
    · simp [restoreDeps, h, List.takeWhile_cons, depOk, depFetch]

theorem restoreDeps_no_listing (f : FetchOk) : ∀ refs : List CoobRef,
    ((restoreDeps f refs).1).count NEvent.listingFetch = 0
  | [] => rfl
  | r :: rs => by
    by_cases h : f r.id (some r.version) <;>
      simp [restoreDeps, h, List.count_cons, restoreDeps_no_listing f rs]

/-! ## The selection loop of `Get-LatestCoobVersion` -/

/-- Running the loop with a ceiling equals running it without one over the
candidates strictly below the ceiling: the ceiling test only ever discards
an iteration whole. -/
theorem selectLatest_ceiling (m : List Nat) (name : Str) :
    ∀ (keys : List Str) (acc : Option (List Nat)),
      keys.foldl (latestStep (some m) name) acc =
        ((candidateVersions name keys).filter
            (fun v => 0 < sysVerCompare m v)).foldl pickLater acc
  | [], _ => rfl
  | k :: ks, acc => by
    simp only [List.foldl_cons, candidateVersions, List.filterMap_cons]
    by_cases hm : coobKeyMatches name k
    · cases hp : sysVerTryParse (coobKeyVersionStr name k) with
      | none =>
        simp only [latestStep, if_pos hm, hp]
        simpa [candidateVersions, hm, hp] using selectLatest_ceiling m name ks acc
      | some v =>
        by_cases hle : sysVerCompare m v ≤ 0
        · simp only [latestStep, if_pos hm, hp, if_pos hle]
          have := selectLatest_ceiling m name ks acc
          simpa [candidateVersions, hm, hp, List.filter_cons, not_lt.mpr hle] using this
        · simp only [latestStep, if_pos hm, hp, if_neg hle]
          have := selectLatest_ceiling m name ks (pickLater acc v)
          simpa [candidateVersions, hm, hp, List.filter_cons, lt_of_not_le hle] using this
    · simp only [latestStep, if_neg hm]
      simpa [candidateVersions, hm] using selectLatest_ceiling m name ks acc

/-- A string that parses as a version is not null-or-whitespace: its first
component has a digit character. -/
theorem sysVerTryParse_not_ws {s : Str} {m : List Nat}
    (h : sysVerTryParse s = some m) : isNullOrWhiteSpaceOpt (some s) = false := by
  simp only [sysVerTryParse] at h
  split at h
  case isTrue hcond =>
    obtain ⟨h2, h4, hall⟩ := hcond
    rcases hp : jsSplit '.' s with _ | ⟨p, rest⟩
    · rw [hp] at h2
      simp at h2
    · have hpmem : p ∈ jsSplit '.' s := by rw [hp]; simp
      obtain ⟨hne, hdig⟩ := is_numeric_iff.mp (hall p hpmem).1
      rcases hq : p with _ | ⟨c, cs⟩
      · exact absurd hq hne
      · have hc : c ∈ p := by rw [hq]; simp
        have hcs : c ∈ s := mem_of_mem_jsSplit '.' s p hpmem c hc
        simp only [isNullOrWhiteSpaceOpt]
        by_contra hws
        rw [Bool.not_eq_false, List.all_eq_true] at hws
        exact absurd (hws c hcs) (by simp [digit_not_ws (hdig c hc)])
  case isFalse => exact absurd h (by simp)

/-! ## The listing-key round trip of `coobName` / `coobVersion` -/

theorem no_digit_parts {s : Str} (hid : ∀ c ∈ s, c.isDigit = false) :
    (jsSplit '.' s).filter is_numeric = [] := by
  rw [List.filter_eq_nil_iff]
  intro p hp hnum
  obtain ⟨hne, hdig⟩ := is_numeric_iff.mp hnum
  rcases p with _ | ⟨c, cs⟩
  · exact hne rfl
  · have hd := hdig c (by simp)
    have hc : c ∈ s := mem_of_mem_jsSplit '.' s _ hp c (by simp)
    rw [hid c hc] at hd
    exact absurd hd (by simp)

theorem numeric_parts_filter {comps : List Str}
    (h : ∀ p ∈ comps, is_numeric p = true) :
    comps.filter is_numeric = comps := by
  rw [List.filter_eq_self]
  exact h

theorem jsJoin_head_digit {comps : List Str}
    (hnum : ∀ p ∈ comps, is_numeric p = true) (hne : comps ≠ []) :
    jsJoin '.' comps ≠ [] ∧ (jsJoin '.' comps).headI.isDigit = true := by
  rcases comps with _ | ⟨p, rest⟩
  · exact absurd rfl hne
  · obtain ⟨hpne, hpdig⟩ := is_numeric_iff.mp (hnum p (by simp))
    rcases p with _ | ⟨c, cs⟩
    · exact absurd rfl hpne
    · have hc := hpdig c (by simp)
      cases rest with
      | nil => exact ⟨by simp [jsJoin], by simp [jsJoin, hc]⟩
      | cons q rs =>
        constructor
        · show (c :: cs) ++ '.' :: jsJoin '.' (q :: rs) ≠ []
          simp
        · show ((c :: cs) ++ '.' :: jsJoin '.' (q :: rs)).headI.isDigit = true
          simpa using hc

/-- The composed listing key `id ++ "." ++ v ++ ".coob"` splits into the
id's tokens, the version components and the token `"coob"`. -/
theorem key_split (id v : Str) (comps : List Str) (hcomps : comps ≠ [])
    (hdot : ∀ p ∈ comps, '.' ∉ p) (hv : v = jsJoin '.' comps) :
    jsSplit '.' (id ++ str "." ++ v ++ str ".coob") =
      jsSplit '.' id ++ (comps ++ [str "coob"]) := by
  have e : id ++ str "." ++ v ++ str ".coob" =
      id ++ '.' :: (v ++ '.' :: str "coob") := by
    show id ++ ['.'] ++ v ++ ('.' :: str "coob") = _
    rw [List.append_assoc, List.append_assoc, List.singleton_append]
  rw [e, jsSplit_append, jsSplit_append,
    jsSplit_eq_single '.' (str "coob") (by decide), hv,
    jsSplit_jsJoin '.' comps hcomps hdot]

/-- The round trip: a key composed from a digit-free id and a version made
of numeric components maps back to exactly that id and version. -/
theorem coob_key_roundtrip (id v : Str) (comps : List Str)
    (hid : ∀ c ∈ id, c.isDigit = false) (hcomps : comps ≠ [])
    (hnum : ∀ p ∈ comps, is_numeric p = true) (hv : v = jsJoin '.' comps) :
    coobName (id ++ str "." ++ v ++ str ".coob") = id ∧
    coobVersion (id ++ str "." ++ v ++ str ".coob") = v := by
  have hdot : ∀ p ∈ comps, '.' ∉ p := by
    intro p hp hmem
    exact absurd rfl (digit_ne_dot ((is_numeric_iff.mp (hnum p hp)).2 '.' hmem))
  have hsplitv : jsSplit '.' v = comps :=
    hv ▸ jsSplit_jsJoin '.' comps hcomps hdot
  have hks := key_split id v comps hcomps hdot hv
  obtain ⟨hvne, hvdig⟩ := hv ▸ jsJoin_head_digit hnum hcomps
  have hfiltcb : List.filter is_numeric [str "coob"] = [] := rfl
  have hversion :
      coobVersion (id ++ str "." ++ v ++ str ".coob") = v := by
    rw [coobVersion, hks, List.filter_append, List.filter_append,
      no_digit_parts hid, numeric_parts_filter hnum, hfiltcb, List.nil_append,
      List.append_nil, ← hv]
  refine ⟨?_, hversion⟩
  rw [coobName, hks, ← List.append_assoc, List.dropLast_concat]
  have hjoined : jsJoin '.' (jsSplit '.' id ++ comps) = id ++ '.' :: v := by
    rw [jsJoin_append '.' _ _ (jsSplit_ne_nil '.' id) hcomps,
      jsJoin_jsSplit, ← hv]
  rw [hjoined]
  have hver2 : coobVersion (id ++ '.' :: v) = v := by
    rw [coobVersion, jsSplit_append, hsplitv, List.filter_append,
      no_digit_parts hid, numeric_parts_filter hnum, List.nil_append, ← hv]
  rw [hver2, jsReplace_version v hvne hvdig id hid, List.dropLast_concat]

/-! ## Event-trace helpers -/

theorem archiveFetches_nil : archiveFetches [] = [] := rfl

theorem archiveFetches_listing (es : List NEvent) :
    archiveFetches (NEvent.listingFetch :: es) = archiveFetches es := rfl

theorem archiveFetches_fetch (n : Str) (v : Option Str) (es : List NEvent) :
    archiveFetches (NEvent.archiveFetch n v :: es) = (n, v) :: archiveFetches es := rfl

theorem archiveFetches_map_depFetch : ∀ l : List CoobRef,
    archiveFetches (l.map depFetch) = l.map (fun r => (r.id, some r.version))
  | [] => rfl
  | r :: rs => by
    simp only [List.map_cons, depFetch, archiveFetches_fetch,
      archiveFetches_map_depFetch rs]

/-- The three events every `restoreCoob` call opens with: create the
destination folder, empty it, and only then issue the download. -/
theorem restoreCoobFS_shape (coobsDir : Str) (fs : FolderMap) (name version : Str)
    (dOk eOk : Bool) (archive : List Str) :
    ∃ rest, (restoreCoobFS coobsDir fs name version dOk eOk archive).events =
      FsEvent.ensureDir (coobDestFolder coobsDir name) ::
      FsEvent.emptyDir (coobDestFolder coobsDir name) ::
      FsEvent.httpGet (coobUrl name version) :: rest := by
  cases dOk <;> cases eOk <;> exact ⟨_, rfl⟩

/-! # Claim theorems -/

/-- C1 (corrected): when an explicit non-empty version is supplied, both
implementations use it for the root package, but only the PowerShell run
skips the catalog GET: the node `RestoreUnit.restore` awaits `downloadPage`
unconditionally, so exactly one listing fetch occurs there — not zero. -/
theorem C1_explicit_version_amended :
    (∀ (opts : NOpts) (keys : List Str) (f : FetchOk) (refs : List CoobRef)
        (v : Str), opts.coobVersion = some v → v ≠ [] →
        useVersion opts keys = some v ∧
        ((restoreRun opts true keys f refs).1).count NEvent.listingFetch = 1) ∧
    (∀ (name vs : Str) (ign : Option Str) (keys deps : List Str),
        isNullOrWhiteSpaceOpt (some vs) = false →
        ((psRestoreRun name (some vs) ign keys deps).1).count
            PsEvent.listingFetch = 0 ∧
        ((psRestoreRun name (some vs) ign keys deps).1).head? =
          some (PsEvent.coobFetch (name ++ '.' :: vs))) := by
  constructor
  · intro opts keys f refs v hv hne
    have huse : useVersion opts keys = some v := by
      simp [useVersion, hv, hne]
    refine ⟨huse, ?_⟩
    by_cases hr : f opts.coobName (useVersion opts keys) = true
    · simp [restoreRun, hr, List.count_cons, restoreDeps_no_listing]
    · simp [restoreRun, hr, List.count_cons]
  · intro name vs ign keys deps hws
    rw [psRestoreRun, if_neg (by simp [hws])]
    refine ⟨?_, rfl⟩
    simp only [List.count_cons, beq_iff_eq, reduceCtorEq, if_false, Nat.add_zero]
    rw [List.count_eq_zero]
    simp

/-- C1, the claim as frozen is false on the node implementation: a restore
run with the explicit version `"2.0.0"` still performs one listing fetch. -/
theorem C1_counterexample_listing_fetched :
    ((restoreRun ⟨str "Coral.Atoll", some (str "2.0.0")⟩ true []
        (fun _ _ => true) []).1).count NEvent.listingFetch = 1 ∧
    useVersion ⟨str "Coral.Atoll", some (str "2.0.0")⟩ [] = some (str "2.0.0") := by
  decide

/-- C2 (confirmed, against `Get-LatestCoobVersion` of the PowerShell module,
the one latest-version selection that accepts a ceiling): with a parsed
ceiling the loop computes exactly the no-ceiling maximum of the candidates
strictly below the ceiling — every candidate at or above it is excluded —
and on the listing of the claim with ceiling `1.3.0` the result is `1.2.0`. -/
theorem C2_ceiling_excludes_at_or_above :
    (∀ (keys : List Str) (name ceil : Str) (m : List Nat),
        sysVerTryParse ceil = some m →
        getLatestCoobVersion keys name (some ceil) =
          Except.ok (((candidateVersions name keys).filter
              (fun v => 0 < sysVerCompare m v)).foldl pickLater none)) ∧
    getLatestCoobVersion
        [str "foo.1.2.0.coob", str "foo.1.3.0.coob", str "bar.9.9.9.coob"]
        (str "foo") (some (str "1.3.0")) = Except.ok (some [1, 2, 0]) := by
  constructor
  · intro keys name ceil m hparse
    rw [getLatestCoobVersion, if_neg (by simp [sysVerTryParse_not_ws hparse])]
    simp only [Option.getD_some]
    rw [hparse]
    exact congrArg Except.ok (selectLatest_ceiling m name keys none)
  · rfl

/-- C3 (code bug): with a listing that has no key for the requested id the
node selection indeed yields the `undefined`/`none` signal, but the run does
not stop with `NoVersionAvailable`: it proceeds to an archive fetch whose
version is that `undefined` value (the URL would read `foo.undefined.coob`).
The PowerShell implementation guards this case; `restore.js` does not. -/
theorem C3_missing_version_still_fetches :
    coobLatestVersion (str "foo") [str "bar.9.9.9.coob"] = none ∧
    (restoreRun ⟨str "foo", none⟩ true [str "bar.9.9.9.coob"]
        (fun _ _ => true) []).1 =
      [NEvent.listingFetch, NEvent.archiveFetch (str "foo") none] := by
  decide

/-- C4 (confirmed): the root archive is always the first fetch; the
dependencies are fetched afterwards in declaration order, cut off right
after the first failing one (`take` of the successful prefix plus the
failed attempt); with one declared dependency and everything succeeding
there are exactly two fetches, root first. -/
theorem C4_sequential_restore_order :
    (∀ (opts : NOpts) (keys : List Str) (f : FetchOk) (refs : List CoobRef),
        f opts.coobName (useVersion opts keys) = true →
        archiveFetches (restoreRun opts true keys f refs).1 =
          (opts.coobName, useVersion opts keys) ::
            (refs.take ((refs.takeWhile (depOk f)).length + 1)).map
              (fun r => (r.id, some r.version))) ∧
    (∀ (opts : NOpts) (keys : List Str) (f : FetchOk) (refs : List CoobRef),
        f opts.coobName (useVersion opts keys) = false →
        archiveFetches (restoreRun opts true keys f refs).1 =
          [(opts.coobName, useVersion opts keys)]) ∧
    (∀ (opts : NOpts) (keys : List Str) (f : FetchOk) (d : CoobRef),
        (∀ n v, f n v = true) →
        archiveFetches (restoreRun opts true keys f [d]).1 =
          [(opts.coobName, useVersion opts keys), (d.id, some d.version)]) := by
  have h1 : ∀ (opts : NOpts) (keys : List Str) (f : FetchOk) (refs : List CoobRef),
      f opts.coobName (useVersion opts keys) = true →
      archiveFetches (restoreRun opts true keys f refs).1 =
        (opts.coobName, useVersion opts keys) ::
          (refs.take ((refs.takeWhile (depOk f)).length + 1)).map
            (fun r => (r.id, some r.version)) := by
    intro opts keys f refs hroot
    simp only [restoreRun, if_pos rfl, hroot, if_true]
    rw [archiveFetches_listing, archiveFetches_fetch, restoreDeps_events,
      archiveFetches_map_depFetch]
  refine ⟨h1, ?_, ?_⟩
  · intro opts keys f refs hroot
    simp only [restoreRun, if_pos rfl, hroot]
    rfl
  · intro opts keys f d hall
    rw [h1 opts keys f [d] (hall ..)]
    simp [List.takeWhile_cons, depOk, hall]

/-- C5 (corrected): in the node implementation the extraction folder of a
fetch-and-extract call is the literal `coobName` argument joined onto the
coobs directory — no name/version splitting happens; the derived-name
splitting the claim describes exists only in the PowerShell `Restore-Coob`. -/
theorem C5_folder_is_literal_argument :
    (∀ (coobsDir : Str) (fs : FolderMap) (name version : Str)
        (dOk eOk : Bool) (archive : List Str) (f folder : Str),
        FsEvent.unzip f folder ∈
            (restoreCoobFS coobsDir fs name version dOk eOk archive).events →
        folder = coobDestFolder coobsDir name) ∧
    (∀ coobsDir name : Str, coobDestFolder coobsDir name = pathJoin coobsDir name) ∧
    coobDestFolder (str "Coobs") (str "Coral.Common.1.4.2") =
      str "Coobs/Coral.Common.1.4.2" := by
  refine ⟨?_, fun _ _ => rfl, by decide⟩
  intro coobsDir fs name version dOk eOk archive f folder h
  cases dOk <;> cases eOk <;> simp [restoreCoobFS] at h <;> tauto

/-- C5, the claim as frozen is false on the node code: for the combined
packageId argument `"Coral.Common.1.4.2"` the node folder is the literal
argument, not the `<name>` portion `"Coral.Common"` the claim derives. -/
theorem C5_counterexample_derived_folder :
    coobDestFolder (str "Coobs") (str "Coral.Common.1.4.2") ≠
      pathJoin (str "Coobs") (specDerivedName (str "Coral.Common.1.4.2")) ∧
    specDerivedName (str "Coral.Common.1.4.2") = str "Coral.Common" := by
  decide

/-- C6 (confirmed): `IsValidVersion` accepts exactly the strings whose
dot-split (truncated at 5 tokens) has 2 to 4 components that all satisfy
the component rule: non-empty, digits only, no leading zero unless the
token is `"0"`, value at most 2147483647. -/
theorem C6_version_validation_characterization :
    ∀ s : Str, IsValidVersion s = true ↔
      (2 ≤ ((jsSplit '.' s).take 5).length ∧ ((jsSplit '.' s).take 5).length ≤ 4 ∧
        ∀ p ∈ (jsSplit '.' s).take 5, specValidComponent p) := by
  intro s
  simp only [IsValidVersion]
  generalize (jsSplit '.' s).take 5 = parts
  rcases parts with _ | ⟨a, _ | ⟨b, _ | ⟨c, _ | ⟨d, _ | ⟨e, rest⟩⟩⟩⟩⟩
  · simp
  · simp
  · simp [IsValidVersionComponent_iff, List.forall_mem_cons, and_assoc]
  · simp [IsValidVersionComponent_iff, List.forall_mem_cons, and_assoc]
  · simp [IsValidVersionComponent_iff, List.forall_mem_cons, and_assoc]
  · simp [List.forall_mem_cons]

/-- C7 (confirmed): on operands whose dot-separated parts are all numeric
(the validity `versionCompare` itself checks), the comparison is
antisymmetric — greater one way exactly when less the other — and reflexive
to `equal`. -/
theorem C7_compare_strict_order :
    (∀ a b : Str, (jsSplit '.' a).all is_numeric = true →
        (jsSplit '.' b).all is_numeric = true →
        (versionCompare a b = some 1 ↔ versionCompare b a = some (-1))) ∧
    (∀ a : Str, (jsSplit '.' a).all is_numeric = true →
        versionCompare a a = some 0) := by
  constructor
  · intro a b ha hb
    rw [versionCompare_valid a b ha hb, versionCompare_valid b a hb ha]
    simp only [Option.some.injEq]
    exact cmpLists_swap ..
  · intro a ha
    rw [versionCompare_valid a a ha ha, cmpLists_self]

/-- C8 (code bug): `RestoreCoobsCommand` chains `.then(resolve())`, which
resolves the command promise at installation time; the CLI therefore exits
with code 0 even when the restore run fails.  Only a missing/empty
`coobName`, rejected synchronously, produces the non-zero exit. -/
theorem C8_exit_zero_despite_failure :
    RestoreCoobsCommand (some (str "Coral.Atoll")) false =
      PromiseResult.resolvedP ∧
    ccmRestoreExitCode (some (str "Coral.Atoll")) false = 0 ∧
    ccmRestoreExitCode (some (str "Coral.Atoll")) true = 0 ∧
    ccmRestoreExitCode none true = -1 ∧
    ccmRestoreExitCode (some []) true = -1 := by
  decide

/-- C9 (confirmed): every `restoreCoob` call creates and fully empties the
destination folder before the download is issued, and when the download or
the extraction then fails, that folder is left empty while every other
folder keeps its prior contents. -/
theorem C9_empty_before_download_frame :
    ∀ (coobsDir : Str) (fs : FolderMap) (name version : Str)
      (dOk eOk : Bool) (archive : List Str),
      (∃ rest, (restoreCoobFS coobsDir fs name version dOk eOk archive).events =
          FsEvent.ensureDir (coobDestFolder coobsDir name) ::
          FsEvent.emptyDir (coobDestFolder coobsDir name) ::
          FsEvent.httpGet (coobUrl name version) :: rest) ∧
      ((dOk && eOk) = false →
        (restoreCoobFS coobsDir fs name version dOk eOk archive).ok = false ∧
        (restoreCoobFS coobsDir fs name version dOk eOk archive).fs
            (coobDestFolder coobsDir name) = [] ∧
        ∀ q, q ≠ coobDestFolder coobsDir name →
          (restoreCoobFS coobsDir fs name version dOk eOk archive).fs q = fs q) := by
  intro coobsDir fs name version dOk eOk archive
  refine ⟨restoreCoobFS_shape .., ?_⟩
  intro hfail
  cases dOk <;> cases eOk <;> simp at hfail <;>
    exact ⟨rfl, by simp [restoreCoobFS, fsSet],
      fun q hq => by simp [restoreCoobFS, fsSet, hq]⟩

/-- C10 (confirmed): for a package id without digits and a version of 2–4
numeric components, `coobName` and `coobVersion` recover exactly the id and
the version from the composed listing key, so the catalog filter matches
the key for precisely its own id; with digits in the id the round trip
fails (witnessed by id `"a.1"`, version `"2.3"`). -/
theorem C10_key_name_version_roundtrip :
    (∀ (id v : Str) (comps : List Str),
        (∀ c ∈ id, c.isDigit = false) →
        2 ≤ comps.length → comps.length ≤ 4 →
        (∀ p ∈ comps, is_numeric p = true) →
        v = jsJoin '.' comps →
        coobName (id ++ str "." ++ v ++ str ".coob") = id ∧
        coobVersion (id ++ str "." ++ v ++ str ".coob") = v ∧
        (∀ q : Str, coobName (id ++ str "." ++ v ++ str ".coob") = q ↔ q = id)) ∧
    (coobName (str "a.1.2.3.coob") ≠ str "a.1" ∧
     coobVersion (str "a.1.2.3.coob") ≠ str "2.3") := by
  constructor
  · intro id v comps hid h2 h4 hnum hv
    have hcomps : comps ≠ [] := by
      intro e
      rw [e] at h2
      simp at h2
    obtain ⟨hname, hver⟩ := coob_key_roundtrip id v comps hid hcomps hnum hv
    exact ⟨hname, hver, fun q => by rw [hname]; exact eq_comm⟩
  · constructor <;> decide

/-! # Concrete instantiations of the claim theorems -/

/-- C1 at the end-to-end scenario of the spec: explicit version `"2.0.0"`
for root `"Coral.Atoll"`. -/
theorem C1_explicit_version_amended_witness :
    useVersion ⟨str "Coral.Atoll", some (str "2.0.0")⟩ [] = some (str "2.0.0") ∧
    ((psRestoreRun (str "Coral.Atoll") (some (str "2.0.0")) none [] []).1).count
        PsEvent.listingFetch = 0 :=
  ⟨(C1_explicit_version_amended.1 ⟨str "Coral.Atoll", some (str "2.0.0")⟩ []
      (fun _ _ => true) [] (str "2.0.0") rfl (by decide)).1,
   (C1_explicit_version_amended.2 (str "Coral.Atoll") (str "2.0.0") none [] []
      (by decide)).1⟩

/-- C2 at the ceiling `"1.3.0"` over a one-entry listing. -/
theorem C2_ceiling_witness :
    getLatestCoobVersion [str "foo.1.2.0.coob"] (str "foo") (some (str "1.3.0")) =
      Except.ok (((candidateVersions (str "foo") [str "foo.1.2.0.coob"]).filter
          (fun v => 0 < sysVerCompare [1, 3, 0] v)).foldl pickLater none) :=
  C2_ceiling_excludes_at_or_above.1 [str "foo.1.2.0.coob"] (str "foo")
    (str "1.3.0") [1, 3, 0] rfl

/-- C4 at the one-dependency scenario of the spec. -/
theorem C4_two_fetches_witness :
    archiveFetches (restoreRun ⟨str "Coral.Atoll", some (str "2.0.0")⟩ true []
        (fun _ _ => true) [⟨str "Coral.Common", str "1.4.2"⟩]).1 =
      [(str "Coral.Atoll", useVersion ⟨str "Coral.Atoll", some (str "2.0.0")⟩ []),
       (str "Coral.Common", some (str "1.4.2"))] :=
  C4_sequential_restore_order.2.2 ⟨str "Coral.Atoll", some (str "2.0.0")⟩ []
    (fun _ _ => true) ⟨str "Coral.Common", str "1.4.2"⟩ (fun _ _ => rfl)

/-- C5's general part at a concrete extraction. -/
theorem C5_literal_folder_witness :
    str "Coobs/Coral.Common.1.4.2" =
      coobDestFolder (str "Coobs") (str "Coral.Common.1.4.2") :=
  C5_folder_is_literal_argument.1 (str "Coobs") (fun _ => [])
    (str "Coral.Common.1.4.2") (str "1.4.2") true true []
    (coobDest (str "Coobs") (str "Coral.Common.1.4.2") (str "1.4.2"))
    (str "Coobs/Coral.Common.1.4.2") (by decide)

/-- C7 at `"1.10"` against `"1.2.0"` (numeric, not lexicographic, order). -/
theorem C7_compare_witness :
    (versionCompare (str "1.10") (str "1.2.0") = some 1 ↔
      versionCompare (str "1.2.0") (str "1.10") = some (-1)) ∧
    versionCompare (str "1.2.0") (str "1.2.0") = some 0 :=
  ⟨C7_compare_strict_order.1 (str "1.10") (str "1.2.0") (by decide) (by decide),
   C7_compare_strict_order.2 (str "1.2.0") (by decide)⟩

/-- C9 at a failed download over a folder that had prior contents. -/
theorem C9_failure_witness :
    (restoreCoobFS (str "Coobs") (fun _ => [str "stale"]) (str "Coral.Common")
        (str "1.4.2") false true []).fs
      (coobDestFolder (str "Coobs") (str "Coral.Common")) = [] :=
  ((C9_empty_before_download_frame (str "Coobs") (fun _ => [str "stale"])
      (str "Coral.Common") (str "1.4.2") false true []).2 rfl).2.1

/-- C10 at id `"foo"` and version `"1.2.0"`. -/
theorem C10_roundtrip_witness :
    coobName (str "foo" ++ str "." ++ str "1.2.0" ++ str ".coob") = str "foo" ∧
    coobVersion (str "foo" ++ str "." ++ str "1.2.0" ++ str ".coob") = str "1.2.0" :=
  have h := C10_key_name_version_roundtrip.1 (str "foo") (str "1.2.0")
    [str "1", str "2", str "0"] (by decide) (by decide) (by decide) (by decide) rfl
  ⟨h.1, h.2.1⟩

end Atoll
